import Mathlib

set_option maxHeartbeats 1000000

/-!
Shallow embedding of the geohash-rust library.

Floating-point (`f64`) coordinates are modelled as exact rationals (`ℚ`):
every arithmetic operation performed by the library on bounding-box bounds is
a sum or a halving starting from the integers -90, 90, -180, 180, so all
intermediate values are dyadic rationals that `f64` represents exactly at the
precisions in scope; comparisons and min/max on such values agree between
`f64` and `ℚ`.  Machine integers (`u64`, `u8`) are modelled as `Nat` with
explicit reduction modulo `2^64` / `2^8` where the source can overflow.
Panicking paths (`assert!`, array-bound panics) are modelled with `Option`.
-/

/-- A geographic location (src/geolocation.rs, struct GeoLocation). -/
structure GeoLocation where
  latitude : ℚ
  longitude : ℚ
deriving DecidableEq, Repr

/-- GeoLocation::from_coordinates: asserts `|latitude| <= 90` and
`|longitude| <= 180`, then builds the record; the assertion failures are
modelled as `none`. -/
def GeoLocation.from_coordinates (latitude longitude : ℚ) : Option GeoLocation :=
  if |latitude| ≤ 90 then
    if |longitude| ≤ 180 then
      some { latitude := latitude, longitude := longitude }
    else none
  else none

/-- An axis-aligned latitude/longitude rectangle (src/boundingbox.rs). -/
@[ext] structure BoundingBox where
  min_lat : ℚ
  max_lat : ℚ
  min_lon : ℚ
  max_lon : ℚ
deriving DecidableEq, Repr

/-- BoundingBox::from_coordinates: normalizes each pair with min/max. -/
def BoundingBox.from_coordinates (minlat maxlat minlon maxlon : ℚ) : BoundingBox :=
  { min_lat := min minlat maxlat
    max_lat := max minlat maxlat
    min_lon := min minlon maxlon
    max_lon := max minlon maxlon }

/-- BoundingBox::from_geolocations. -/
def BoundingBox.from_geolocations (p1 p2 : GeoLocation) : BoundingBox :=
  { min_lat := min p1.latitude p2.latitude
    max_lat := max p1.latitude p2.latitude
    min_lon := min p1.longitude p2.longitude
    max_lon := max p1.longitude p2.longitude }

/-- BoundingBox::merged. -/
def BoundingBox.merged (one other : BoundingBox) : BoundingBox :=
  { min_lat := min one.min_lat other.min_lat
    max_lat := max one.max_lat other.max_lat
    min_lon := min one.min_lon other.min_lon
    max_lon := max one.max_lon other.max_lon }

/-- BoundingBox::center. -/
def BoundingBox.center (b : BoundingBox) : GeoLocation :=
  { latitude := (b.min_lat + b.max_lat) / 2
    longitude := (b.min_lon + b.max_lon) / 2 }

/-- BoundingBox::latitude_range. -/
def BoundingBox.latitude_range (b : BoundingBox) : ℚ :=
  b.max_lat - b.min_lat

/-- BoundingBox::longitude_range. -/
def BoundingBox.longitude_range (b : BoundingBox) : ℚ :=
  b.max_lon - b.min_lon

/-- BoundingBox::contains: inclusive on all four edges. -/
def BoundingBox.contains (b : BoundingBox) (point : GeoLocation) : Bool :=
  decide (point.latitude ≥ b.min_lat) && decide (point.latitude ≤ b.max_lat)
    && decide (point.longitude ≥ b.min_lon) && decide (point.longitude ≤ b.max_lon)

/-- BoundingBox::merge_with: the mutating merge, modelled as returning the
updated receiver; each bound is overwritten only when the other box's bound
is strictly beyond it, exactly as the four `if`s in the source. -/
def BoundingBox.merge_with (self other : BoundingBox) : BoundingBox :=
  let s := if other.min_lat < self.min_lat then { self with min_lat := other.min_lat } else self
  let s := if other.min_lon < s.min_lon then { s with min_lon := other.min_lon } else s
  let s := if other.max_lat > s.max_lat then { s with max_lat := other.max_lat } else s
  if other.max_lon > s.max_lon then { s with max_lon := other.max_lon } else s

/-- Binary hash code (src/geohash.rs, struct BinaryHash): `bits: u64` and
`precision: u8` modelled as `Nat` reduced at each push. -/
structure BinaryHash where
  bits : Nat
  precision : Nat
deriving DecidableEq, Repr

/-- BinaryHash::new. -/
def BinaryHash.new : BinaryHash :=
  { bits := 0, precision := 0 }

/-- BinaryHash::len. -/
def BinaryHash.len (h : BinaryHash) : Nat := h.precision

/-- BinaryHash::empty. -/
def BinaryHash.empty (h : BinaryHash) : Bool := h.precision == 0

/-- BinaryHash::test: `(self.bits & (1u64 << (self.precision-n-1))) != 0`. -/
def BinaryHash.test (h : BinaryHash) (n : Nat) : Bool :=
  h.bits &&& (1 <<< (h.precision - n - 1)) != 0

/-- BinaryHash::push: `bits <<= 1; bits |= b; precision += 1` with the `u64`
and `u8` wrap-arounds made explicit. -/
def BinaryHash.push (h : BinaryHash) (b : Bool) : BinaryHash :=
  { bits := ((h.bits <<< 1) ||| (if b then 1 else 0)) % 2 ^ 64
    precision := (h.precision + 1) % 2 ^ 8 }

/-- The `while output.len() < precision` loop of BinaryHash::encode, as a
fuelled recursion; the loop body is transcribed verbatim. -/
def BinaryHash.encodeLoop (l : GeoLocation) (precision : Nat) :
    Nat → BoundingBox → Bool → BinaryHash → BinaryHash
  | 0, _, _, output => output
  | fuel + 1, bbox, islon, output =>
    if output.len < precision then
      if islon then
        let mid := (bbox.max_lon + bbox.min_lon) / 2
        if l.longitude > mid then
          BinaryHash.encodeLoop l precision fuel { bbox with min_lon := mid } (!islon) (output.push true)
        else
          BinaryHash.encodeLoop l precision fuel { bbox with max_lon := mid } (!islon) (output.push false)
      else
        let mid := (bbox.max_lat + bbox.min_lat) / 2
        if l.latitude > mid then
          BinaryHash.encodeLoop l precision fuel { bbox with min_lat := mid } (!islon) (output.push true)
        else
          BinaryHash.encodeLoop l precision fuel { bbox with max_lat := mid } (!islon) (output.push false)
    else output

/-- BinaryHash::encode: each loop iteration appends exactly one bit, so
`precision` iterations of fuel make the fuelled loop reach its exit test. -/
def BinaryHash.encode (l : GeoLocation) (precision : Nat) : BinaryHash :=
  BinaryHash.encodeLoop l precision precision
    (BoundingBox.from_coordinates (-90) 90 (-180) 180) true BinaryHash.new

/-- BinaryHash::decode: `for n in 0..precision` narrowing the world box, with
the loop state being the box together with the `islon` flag. -/
def BinaryHash.decode (h : BinaryHash) : BoundingBox :=
  ((List.range h.precision).foldl (fun st n =>
    let output := st.1
    if st.2 then
      let mid := (output.max_lon + output.min_lon) / 2
      (if h.test n then { output with min_lon := mid } else { output with max_lon := mid }, !st.2)
    else
      let mid := (output.max_lat + output.min_lat) / 2
      (if h.test n then { output with min_lat := mid } else { output with max_lat := mid }, !st.2))
    (BoundingBox.from_coordinates (-90) 90 (-180) 180, true)).1

/-- BASE32_CODES (src/geohash.rs). -/
def BASE32_CODES : List Char :=
  ['0', '1', '2', '3', '4', '5', '6', '7',
   '8', '9', 'b', 'c', 'd', 'e', 'f', 'g',
   'h', 'j', 'k', 'm', 'n', 'p', 'q', 'r',
   's', 't', 'u', 'v', 'w', 'x', 'y', 'z']

/-- BASE32_INDICES (src/geohash.rs): dense table indexed by `code point - 48`,
with 255 (`0xFF`) as the invalid sentinel. -/
def BASE32_INDICES : List Nat :=
  [0, 1, 2, 3, 4, 5, 6, 7,
   8, 9, 255, 255, 255, 255, 255, 255,
   255, 255, 10, 11, 12, 13, 14, 15,
   16, 255, 17, 18, 255, 19, 20, 255,
   21, 22, 23, 24, 25, 26, 27, 28,
   29, 30, 31, 255, 255, 255, 255, 255,
   255, 255, 10, 11, 12, 13, 14, 15,
   16, 255, 17, 18, 255, 19, 20, 255,
   21, 22, 23, 24, 25, 26, 27, 28,
   29, 30, 31]

/-- Loop state of the string `encode` (the five mutable locals of the
source function, minus the location which is read-only). -/
structure EncState where
  bbox : BoundingBox
  islon : Bool
  num_bits : Nat
  hash_index : Nat
  output : List Char
deriving Repr

/-- One iteration of the `while` body of `encode` (src/geohash.rs:298-325):
bisect the alternating axis, accumulate the bit into `hash_index`, and on
every fifth bit emit `BASE32_CODES[hash_index]` and reset the index. -/
def encodeStep (l : GeoLocation) (st : EncState) : EncState :=
  let st1 :=
    if st.islon then
      let mid := (st.bbox.max_lon + st.bbox.min_lon) / 2
      if l.longitude > mid then
        { st with hash_index := st.hash_index * 2 + 1, bbox := { st.bbox with min_lon := mid } }
      else
        { st with hash_index := st.hash_index * 2, bbox := { st.bbox with max_lon := mid } }
    else
      let mid := (st.bbox.max_lat + st.bbox.min_lat) / 2
      if l.latitude > mid then
        { st with hash_index := st.hash_index * 2 + 1, bbox := { st.bbox with min_lat := mid } }
      else
        { st with hash_index := st.hash_index * 2, bbox := { st.bbox with max_lat := mid } }
  let st2 := { st1 with islon := !st1.islon, num_bits := st1.num_bits + 1 }
  if st2.num_bits % 5 == 0 then
    { st2 with output := st2.output ++ [BASE32_CODES.getD st2.hash_index ' '], hash_index := 0 }
  else st2

/-- The `while output.len() < precision` loop of `encode`, fuelled. -/
def encodeLoop (l : GeoLocation) (precision : Nat) : Nat → EncState → EncState
  | 0, st => st
  | fuel + 1, st =>
    if st.output.length < precision then encodeLoop l precision fuel (encodeStep l st) else st

/-- encode (src/geohash.rs:289-327): every fifth iteration appends one
character, so `5 * precision` iterations of fuel reach the exit test. -/
def encode (l : GeoLocation) (precision : Nat) : String :=
  String.mk (encodeLoop l precision (5 * precision)
    { bbox := BoundingBox.from_coordinates (-90) 90 (-180) 180
      islon := true, num_bits := 0, hash_index := 0, output := [] }).output

/-- The inner `for bits in (0..5).rev()` loop of `decode`: replay the five
bits of one character, most significant first. -/
def decodeChar (char_index : Nat) (st : BoundingBox × Bool) : BoundingBox × Bool :=
  ((List.range 5).reverse).foldl (fun st bits =>
    let bit := (char_index >>> bits) &&& 1 == 1
    let output := st.1
    if st.2 then
      let mid := (output.max_lon + output.min_lon) / 2
      (if bit then { output with min_lon := mid } else { output with max_lon := mid }, !st.2)
    else
      let mid := (output.max_lat + output.min_lat) / 2
      (if bit then { output with min_lat := mid } else { output with max_lat := mid }, !st.2)) st

/-- The character loop of `decode`: `assert!(c>='0' && c<='z')` and
`assert!(char_index<32)` are modelled as `none` ('0' is code 48 and 'z' is
code 122, and Rust compares chars by code point). -/
def decodeLoop : List Char → BoundingBox × Bool → Option (BoundingBox × Bool)
  | [], st => some st
  | c :: rest, st =>
    if 48 ≤ c.toNat ∧ c.toNat ≤ 122 then
      let char_index := BASE32_INDICES.getD (c.toNat - 48) 255
      if char_index < 32 then
        decodeLoop rest (decodeChar char_index st)
      else none
    else none

/-- decode (src/geohash.rs:337-368); the diagnostic `println!` is dropped. -/
def decode (hash : String) : Option BoundingBox :=
  (decodeLoop hash.data (BoundingBox.from_coordinates (-90) 90 (-180) 180, true)).map
    (fun st => st.1)

/-- neighbor (src/geohash.rs:379-389): decode, shift the center by one
cell-range in each requested direction, validate, re-encode at the same
character length. -/
def neighbor (hash : String) (direction : Int × Int) : Option String := do
  let b ← decode hash
  let cp := b.center
  let gl ← GeoLocation.from_coordinates
    (cp.latitude + b.latitude_range * (direction.1 : ℚ))
    (cp.longitude + b.longitude_range * (direction.2 : ℚ))
  pure (encode gl hash.length)

/-- The bit that one bisection step of `encode` / `BinaryHash::encode` emits
from state (box, islon): compare the coordinate on the alternating axis with
the box midpoint. -/
def encBit (l : GeoLocation) (st : BoundingBox × Bool) : Bool :=
  if st.2 then decide (l.longitude > (st.1.max_lon + st.1.min_lon) / 2)
  else decide (l.latitude > (st.1.max_lat + st.1.min_lat) / 2)

/-- The box-narrowing step shared by every decode loop: consume one bit,
narrow the alternating axis, flip the axis flag. -/
def stepBox (b : Bool) (st : BoundingBox × Bool) : BoundingBox × Bool :=
  let output := st.1
  if st.2 then
    let mid := (output.max_lon + output.min_lon) / 2
    (if b then { output with min_lon := mid } else { output with max_lon := mid }, !st.2)
  else
    let mid := (output.max_lat + output.min_lat) / 2
    (if b then { output with min_lat := mid } else { output with max_lat := mid }, !st.2)

/-- One full encode step on the (box, islon) state. -/
def step1 (l : GeoLocation) (st : BoundingBox × Bool) : BoundingBox × Bool :=
  stepBox (encBit l st) st

/-- The list of bisection bits that encoding `l` for `k` steps emits from
state `st`. -/
def encBits (l : GeoLocation) : Nat → BoundingBox × Bool → List Bool
  | 0, _ => []
  | k + 1, st => encBit l st :: encBits l k (step1 l st)

/-- The (box, islon) state after `k` encode steps. -/
def runEnc (l : GeoLocation) : Nat → BoundingBox × Bool → BoundingBox × Bool
  | 0, st => st
  | k + 1, st => runEnc l k (step1 l st)

/-- Push a list of bits into a `BinaryHash`, first bit first. -/
def pushAll (h : BinaryHash) (bs : List Bool) : BinaryHash :=
  bs.foldl BinaryHash.push h

/-- The stored bits of a `BinaryHash`, in push order. -/
def BinaryHash.bitsList (h : BinaryHash) : List Bool :=
  (List.range h.precision).map h.test

/-- Fold five bits, most significant first, into a base32 index, exactly as
`hash_index` accumulates them in `encode`. -/
def toIdx (bs : List Bool) : Nat :=
  bs.foldl (fun a b => a * 2 + (if b then 1 else 0)) 0

/-- Pack a bit sequence into base32 characters, five bits per character. -/
def pack5 : List Bool → List Char
  | b0 :: b1 :: b2 :: b3 :: b4 :: rest =>
    BASE32_CODES.getD (toIdx [b0, b1, b2, b3, b4]) ' ' :: pack5 rest
  | _ => []

/-- Modelled from the spec: the legal decode alphabet `[0-9b-hj-km-np-z]`
interpreted case-insensitively, written out as the explicit character set. -/
def legalBase32Chars : List Char :=
  ['0', '1', '2', '3', '4', '5', '6', '7', '8', '9',
   'b', 'c', 'd', 'e', 'f', 'g', 'h', 'j', 'k', 'm', 'n',
   'p', 'q', 'r', 's', 't', 'u', 'v', 'w', 'x', 'y', 'z',
   'B', 'C', 'D', 'E', 'F', 'G', 'H', 'J', 'K', 'M', 'N',
   'P', 'Q', 'R', 'S', 'T', 'U', 'V', 'W', 'X', 'Y', 'Z']

/-- Modelled from the spec: membership in the legal decode alphabet. -/
def isLegalBase32Char (c : Char) : Bool :=
  decide (c ∈ legalBase32Chars)

/-- The bounding-box ordering invariant. -/
def boxWF (b : BoundingBox) : Prop :=
  b.min_lat ≤ b.max_lat ∧ b.min_lon ≤ b.max_lon

/-- Box `a` is contained in box `b`. -/
def boxSub (a b : BoundingBox) : Prop :=
  b.min_lat ≤ a.min_lat ∧ a.max_lat ≤ b.max_lat ∧
    b.min_lon ≤ a.min_lon ∧ a.max_lon ≤ b.max_lon

/-- neighbors (src/geohash.rs:407-419). -/
def neighbors (hash : String) : Option (List String) := do
  let n1 ← neighbor hash (-1, -1)
  let n2 ← neighbor hash (-1, 0)
  let n3 ← neighbor hash (-1, 1)
  let n4 ← neighbor hash (0, -1)
  let n5 ← neighbor hash (0, 1)
  let n6 ← neighbor hash (1, -1)
  let n7 ← neighbor hash (1, 0)
  let n8 ← neighbor hash (1, 1)
  pure [hash, n1, n2, n3, n4, n5, n6, n7, n8]

/-! ### Bit-level facts about `BinaryHash` -/

theorem test_eq_testBit (h : BinaryHash) (n : Nat) :
    h.test n = h.bits.testBit (h.precision - n - 1) := by
  unfold BinaryHash.test
  rw [Nat.shiftLeft_eq, one_mul, Nat.and_two_pow]
  cases hb : h.bits.testBit (h.precision - n - 1) <;>
    simp [hb, bne_iff_ne, Nat.pos_iff_ne_zero.mp (Nat.two_pow_pos _)]

theorem push_eq (h : BinaryHash) (b : Bool) (hb : h.bits < 2 ^ h.precision)
    (hp : h.precision < 64) :
    h.push b = { bits := 2 * h.bits + (if b then 1 else 0), precision := h.precision + 1 } := by
  unfold BinaryHash.push
  have h2 : (if b then 1 else 0) < 2 ^ 1 := by cases b <;> norm_num
  have h3 : (h.bits <<< 1) ||| (if b then 1 else 0) = 2 * h.bits + (if b then 1 else 0) := by
    rw [Nat.shiftLeft_eq, pow_one, Nat.mul_comm,
      ← Nat.mul_add_lt_is_or h2, Nat.mul_comm]
  have hpow : 2 ^ h.precision ≤ 2 ^ 63 := Nat.pow_le_pow_right (by norm_num) (by omega)
  have hble : (if b then 1 else 0) ≤ 1 := by cases b <;> norm_num
  have h4 : 2 * h.bits + (if b then 1 else 0) < 2 ^ 64 := by
    have : (2 : Nat) ^ 64 = 2 ^ 63 * 2 := by norm_num
    omega
  have h5 : h.precision + 1 < 2 ^ 8 := by omega
  rw [h3, Nat.mod_eq_of_lt h4, Nat.mod_eq_of_lt h5]

theorem pushAll_spec : ∀ (bs : List Bool) (h : BinaryHash),
    h.bits < 2 ^ h.precision → h.precision + bs.length ≤ 64 →
    (pushAll h bs).precision = h.precision + bs.length ∧
      (pushAll h bs).bits < 2 ^ (pushAll h bs).precision ∧
      (pushAll h bs).bitsList = h.bitsList ++ bs := by
  intro bs
  induction bs with
  | nil =>
    intro h hb hlen
    refine ⟨by simp [pushAll], ?_, by simp [pushAll, BinaryHash.bitsList]⟩
    simpa [pushAll] using hb
  | cons b rest ih =>
    intro h hb hlen
    have hlc : (b :: rest).length = rest.length + 1 := List.length_cons b rest
    have hp : h.precision < 64 := by omega
    have hpush := push_eq h b hb hp
    have hbit : (if b then 1 else 0) ≤ 1 := by cases b <;> norm_num
    have hbits' : (h.push b).bits < 2 ^ (h.push b).precision := by
      rw [hpush]
      have hps : 2 ^ (h.precision + 1) = 2 * 2 ^ h.precision := by ring
      show 2 * h.bits + (if b then 1 else 0) < 2 ^ (h.precision + 1)
      omega
    have hprec' : (h.push b).precision = h.precision + 1 := by rw [hpush]
    have hlist : (h.push b).bitsList = h.bitsList ++ [b] := by
      unfold BinaryHash.bitsList
      rw [hprec', List.range_succ, List.map_append, List.map_cons, List.map_nil]
      congr 1
      · apply List.map_congr_left
        intro n hn
        rw [List.mem_range] at hn
        rw [test_eq_testBit, test_eq_testBit, hpush]
        show Nat.testBit (2 * h.bits + (if b then 1 else 0)) (h.precision + 1 - n - 1) =
          Nat.testBit h.bits (h.precision - n - 1)
        rw [show h.precision + 1 - n - 1 = (h.precision - n - 1) + 1 by omega,
          Nat.testBit_succ]
        congr 1
        cases b <;> simp <;> omega
      · rw [test_eq_testBit, hpush]
        show [Nat.testBit (2 * h.bits + (if b then 1 else 0)) (h.precision + 1 - h.precision - 1)] = [b]
        rw [show h.precision + 1 - h.precision - 1 = 0 by omega, Nat.testBit_zero]
        cases b <;> simp <;> omega
    have hrest := ih (h.push b) hbits' (by omega)
    have hfold : pushAll h (b :: rest) = pushAll (h.push b) rest := rfl
    refine ⟨?_, by rw [hfold]; exact hrest.2.1, ?_⟩
    · rw [hfold, hrest.1, hprec', hlc]; omega
    · rw [hfold, hrest.2.2, hlist, List.append_assoc]
      rfl

/-! ### The binary encode loop produces exactly the bisection bits -/

theorem encodeLoop_succ (l : GeoLocation) (precision fuel : Nat) (bbox : BoundingBox)
    (islon : Bool) (output : BinaryHash) :
    BinaryHash.encodeLoop l precision (fuel + 1) bbox islon output =
      if output.len < precision then
        if islon then
          let mid := (bbox.max_lon + bbox.min_lon) / 2
          if l.longitude > mid then
            BinaryHash.encodeLoop l precision fuel { bbox with min_lon := mid } (!islon) (output.push true)
          else
            BinaryHash.encodeLoop l precision fuel { bbox with max_lon := mid } (!islon) (output.push false)
        else
          let mid := (bbox.max_lat + bbox.min_lat) / 2
          if l.latitude > mid then
            BinaryHash.encodeLoop l precision fuel { bbox with min_lat := mid } (!islon) (output.push true)
          else
            BinaryHash.encodeLoop l precision fuel { bbox with max_lat := mid } (!islon) (output.push false)
      else output := rfl

theorem push_len (h : BinaryHash) (b : Bool) (hp : h.precision < 255) :
    (h.push b).len = h.len + 1 := by
  unfold BinaryHash.push BinaryHash.len
  simp only []
  omega

theorem encodeLoop_eq (l : GeoLocation) (precision : Nat) :
    ∀ (fuel : Nat) (bbox : BoundingBox) (islon : Bool) (out : BinaryHash),
    precision ≤ out.len + fuel → out.len + fuel ≤ 255 →
    BinaryHash.encodeLoop l precision fuel bbox islon out =
      pushAll out (encBits l (precision - out.len) (bbox, islon)) := by
  intro fuel
  induction fuel with
  | zero =>
    intro bbox islon out h1 h2
    have : precision - out.len = 0 := by omega
    rw [this]
    rfl
  | succ fuel ih =>
    intro bbox islon out h1 h2
    rw [encodeLoop_succ]
    by_cases hlt : out.len < precision
    · rw [if_pos hlt]
      have hplen : ∀ b : Bool, (out.push b).len = out.len + 1 :=
        fun b => push_len out b (by unfold BinaryHash.len at *; omega)
      have hsub : precision - out.len = (precision - (out.len + 1)) + 1 := by omega
      cases islon with
      | true =>
        simp only []
        by_cases hc : l.longitude > (bbox.max_lon + bbox.min_lon) / 2
        · rw [if_pos hc, ih _ _ _ (by rw [hplen]; omega) (by rw [hplen]; omega), hplen]
          rw [hsub]
          have hbit : encBit l (bbox, true) = true := by
            simp [encBit, hc]
          have hstep : step1 l (bbox, true) =
              ({ bbox with min_lon := (bbox.max_lon + bbox.min_lon) / 2 }, false) := by
            simp [step1, stepBox, hbit]
          rw [show encBits l ((precision - (out.len + 1)) + 1) (bbox, true) =
              encBit l (bbox, true) :: encBits l (precision - (out.len + 1)) (step1 l (bbox, true)) from rfl,
            hbit, hstep]
          rfl
        · rw [if_neg hc, ih _ _ _ (by rw [hplen]; omega) (by rw [hplen]; omega), hplen]
          rw [hsub]
          have hbit : encBit l (bbox, true) = false := by
            simp [encBit, hc]
          have hstep : step1 l (bbox, true) =
              ({ bbox with max_lon := (bbox.max_lon + bbox.min_lon) / 2 }, false) := by
            simp [step1, stepBox, hbit]
          rw [show encBits l ((precision - (out.len + 1)) + 1) (bbox, true) =
              encBit l (bbox, true) :: encBits l (precision - (out.len + 1)) (step1 l (bbox, true)) from rfl,
            hbit, hstep]
          rfl
      | false =>
        rw [if_neg Bool.false_ne_true]
        by_cases hc : l.latitude > (bbox.max_lat + bbox.min_lat) / 2
        · rw [if_pos hc, ih _ _ _ (by rw [hplen]; omega) (by rw [hplen]; omega), hplen]
          rw [hsub]
          have hbit : encBit l (bbox, false) = true := by
            simp [encBit, hc]
          have hstep : step1 l (bbox, false) =
              ({ bbox with min_lat := (bbox.max_lat + bbox.min_lat) / 2 }, true) := by
            simp [step1, stepBox, hbit]
          rw [show encBits l ((precision - (out.len + 1)) + 1) (bbox, false) =
              encBit l (bbox, false) :: encBits l (precision - (out.len + 1)) (step1 l (bbox, false)) from rfl,
            hbit, hstep]
          rfl
        · rw [if_neg hc, ih _ _ _ (by rw [hplen]; omega) (by rw [hplen]; omega), hplen]
          rw [hsub]
          have hbit : encBit l (bbox, false) = false := by
            simp [encBit, hc]
          have hstep : step1 l (bbox, false) =
              ({ bbox with max_lat := (bbox.max_lat + bbox.min_lat) / 2 }, true) := by
            simp [step1, stepBox, hbit]
          rw [show encBits l ((precision - (out.len + 1)) + 1) (bbox, false) =
              encBit l (bbox, false) :: encBits l (precision - (out.len + 1)) (step1 l (bbox, false)) from rfl,
            hbit, hstep]
          rfl
    · rw [if_neg hlt]
      have : precision - out.len = 0 := by omega
      rw [this]
      rfl

theorem binEncode_eq (l : GeoLocation) (n : Nat) (hn : n ≤ 255) :
    BinaryHash.encode l n =
      pushAll BinaryHash.new
        (encBits l n (BoundingBox.from_coordinates (-90) 90 (-180) 180, true)) := by
  unfold BinaryHash.encode
  have h0 : BinaryHash.new.len = 0 := rfl
  rw [encodeLoop_eq l n n _ _ _ (by rw [h0]; omega) (by rw [h0]; omega), h0,
    Nat.sub_zero]

/-! ### Decoding replays the bisection steps -/

theorem foldl_eq_of_eq {α β : Type} (f g : α → β → α) (hfg : ∀ s a, f s a = g s a) :
    ∀ (xs : List β) (s : α), xs.foldl f s = xs.foldl g s := by
  intro xs
  induction xs with
  | nil => intro s; rfl
  | cons x rest ih =>
    intro s
    rw [List.foldl_cons, List.foldl_cons, hfg, ih]

theorem binDecode_eq (h : BinaryHash) :
    h.decode = (h.bitsList.foldl (fun st b => stepBox b st)
      (BoundingBox.from_coordinates (-90) 90 (-180) 180, true)).1 := by
  unfold BinaryHash.bitsList
  rw [List.foldl_map]
  rfl

theorem foldl_stepBox_encBits (l : GeoLocation) :
    ∀ (k : Nat) (st : BoundingBox × Bool),
    (encBits l k st).foldl (fun st b => stepBox b st) st = runEnc l k st := by
  intro k
  induction k with
  | zero => intro st; rfl
  | succ k ih =>
    intro st
    rw [show encBits l (k + 1) st = encBit l st :: encBits l k (step1 l st) from rfl,
      List.foldl_cons]
    rw [show stepBox (encBit l st) st = step1 l st from rfl]
    exact ih (step1 l st)

theorem runEnc_add (l : GeoLocation) :
    ∀ (a b : Nat) (st : BoundingBox × Bool),
    runEnc l (a + b) st = runEnc l b (runEnc l a st) := by
  intro a
  induction a with
  | zero => intro b st; rw [Nat.zero_add]; rfl
  | succ a ih =>
    intro b st
    rw [show a + 1 + b = (a + b) + 1 by omega]
    rw [show runEnc l ((a + b) + 1) st = runEnc l (a + b) (step1 l st) from rfl,
      show runEnc l (a + 1) st = runEnc l a (step1 l st) from rfl]
    exact ih b (step1 l st)

theorem encBits_length (l : GeoLocation) :
    ∀ (k : Nat) (st : BoundingBox × Bool), (encBits l k st).length = k := by
  intro k
  induction k with
  | zero => intro st; rfl
  | succ k ih =>
    intro st
    rw [show encBits l (k + 1) st = encBit l st :: encBits l k (step1 l st) from rfl,
      List.length_cons, ih]

theorem encBits_add (l : GeoLocation) :
    ∀ (a b : Nat) (st : BoundingBox × Bool),
    encBits l (a + b) st = encBits l a st ++ encBits l b (runEnc l a st) := by
  intro a
  induction a with
  | zero => intro b st; rw [Nat.zero_add]; rfl
  | succ a ih =>
    intro b st
    rw [show a + 1 + b = (a + b) + 1 by omega]
    rw [show encBits l ((a + b) + 1) st = encBit l st :: encBits l (a + b) (step1 l st) from rfl,
      show encBits l (a + 1) st = encBit l st :: encBits l a (step1 l st) from rfl,
      ih b (step1 l st)]
    rfl

/-! ### Containment and monotonic narrowing -/

theorem step1_true_pos (l : GeoLocation) (box : BoundingBox)
    (hc : l.longitude > (box.max_lon + box.min_lon) / 2) :
    step1 l (box, true) =
      ({ box with min_lon := (box.max_lon + box.min_lon) / 2 }, false) := by
  simp [step1, stepBox, encBit, hc]

theorem step1_true_neg (l : GeoLocation) (box : BoundingBox)
    (hc : ¬l.longitude > (box.max_lon + box.min_lon) / 2) :
    step1 l (box, true) =
      ({ box with max_lon := (box.max_lon + box.min_lon) / 2 }, false) := by
  simp [step1, stepBox, encBit, hc]

theorem step1_false_pos (l : GeoLocation) (box : BoundingBox)
    (hc : l.latitude > (box.max_lat + box.min_lat) / 2) :
    step1 l (box, false) =
      ({ box with min_lat := (box.max_lat + box.min_lat) / 2 }, true) := by
  simp [step1, stepBox, encBit, hc]

theorem step1_false_neg (l : GeoLocation) (box : BoundingBox)
    (hc : ¬l.latitude > (box.max_lat + box.min_lat) / 2) :
    step1 l (box, false) =
      ({ box with max_lat := (box.max_lat + box.min_lat) / 2 }, true) := by
  simp [step1, stepBox, encBit, hc]

theorem contains_step1 (l : GeoLocation) (st : BoundingBox × Bool)
    (h : st.1.contains l = true) : (step1 l st).1.contains l = true := by
  rcases st with ⟨box, islon⟩
  simp only [BoundingBox.contains, Bool.and_eq_true, decide_eq_true_eq] at h
  obtain ⟨⟨⟨h1, h2⟩, h3⟩, h4⟩ := h
  cases islon with
  | true =>
    by_cases hc : l.longitude > (box.max_lon + box.min_lon) / 2
    · rw [step1_true_pos l box hc]
      simp only [BoundingBox.contains, Bool.and_eq_true, decide_eq_true_eq]
      exact ⟨⟨⟨h1, h2⟩, by linarith⟩, h4⟩
    · rw [step1_true_neg l box hc]
      simp only [BoundingBox.contains, Bool.and_eq_true, decide_eq_true_eq]
      exact ⟨⟨⟨h1, h2⟩, h3⟩, by linarith⟩
  | false =>
    by_cases hc : l.latitude > (box.max_lat + box.min_lat) / 2
    · rw [step1_false_pos l box hc]
      simp only [BoundingBox.contains, Bool.and_eq_true, decide_eq_true_eq]
      exact ⟨⟨⟨by linarith, h2⟩, h3⟩, h4⟩
    · rw [step1_false_neg l box hc]
      simp only [BoundingBox.contains, Bool.and_eq_true, decide_eq_true_eq]
      exact ⟨⟨⟨h1, by linarith⟩, h3⟩, h4⟩

theorem contains_runEnc (l : GeoLocation) :
    ∀ (k : Nat) (st : BoundingBox × Bool),
    st.1.contains l = true → (runEnc l k st).1.contains l = true := by
  intro k
  induction k with
  | zero => intro st h; exact h
  | succ k ih =>
    intro st h
    exact ih (step1 l st) (contains_step1 l st h)

theorem step1_wf (l : GeoLocation) (st : BoundingBox × Bool) (h : boxWF st.1) :
    boxWF (step1 l st).1 := by
  rcases st with ⟨box, islon⟩
  obtain ⟨h1, h2⟩ := h
  cases islon with
  | true =>
    by_cases hc : l.longitude > (box.max_lon + box.min_lon) / 2
    · rw [step1_true_pos l box hc]; exact ⟨h1, by linarith⟩
    · rw [step1_true_neg l box hc]; exact ⟨h1, by linarith⟩
  | false =>
    by_cases hc : l.latitude > (box.max_lat + box.min_lat) / 2
    · rw [step1_false_pos l box hc]; exact ⟨by linarith, h2⟩
    · rw [step1_false_neg l box hc]; exact ⟨by linarith, h2⟩

theorem step1_sub (l : GeoLocation) (st : BoundingBox × Bool) (h : boxWF st.1) :
    boxSub (step1 l st).1 st.1 := by
  rcases st with ⟨box, islon⟩
  obtain ⟨h1, h2⟩ := h
  cases islon with
  | true =>
    by_cases hc : l.longitude > (box.max_lon + box.min_lon) / 2
    · rw [step1_true_pos l box hc]
      exact ⟨le_refl _, le_refl _, by linarith, le_refl _⟩
    · rw [step1_true_neg l box hc]
      exact ⟨le_refl _, le_refl _, le_refl _, by linarith⟩
  | false =>
    by_cases hc : l.latitude > (box.max_lat + box.min_lat) / 2
    · rw [step1_false_pos l box hc]
      exact ⟨by linarith, le_refl _, le_refl _, le_refl _⟩
    · rw [step1_false_neg l box hc]
      exact ⟨le_refl _, by linarith, le_refl _, le_refl _⟩

theorem boxSub_trans {a b c : BoundingBox} (h1 : boxSub a b) (h2 : boxSub b c) :
    boxSub a c := by
  obtain ⟨x1, x2, x3, x4⟩ := h1
  obtain ⟨y1, y2, y3, y4⟩ := h2
  exact ⟨by linarith, by linarith, by linarith, by linarith⟩

theorem runEnc_wf_sub (l : GeoLocation) :
    ∀ (k : Nat) (st : BoundingBox × Bool), boxWF st.1 →
    boxWF (runEnc l k st).1 ∧ boxSub (runEnc l k st).1 st.1 := by
  intro k
  induction k with
  | zero =>
    intro st h
    exact ⟨h, le_refl _, le_refl _, le_refl _, le_refl _⟩
  | succ k ih =>
    intro st h
    have hwf := step1_wf l st h
    have hsub := step1_sub l st h
    have := ih (step1 l st) hwf
    exact ⟨this.1, boxSub_trans this.2 hsub⟩

theorem contains_of_boxSub {a b : BoundingBox} {p : GeoLocation}
    (hsub : boxSub a b) (h : a.contains p = true) : b.contains p = true := by
  obtain ⟨x1, x2, x3, x4⟩ := hsub
  simp only [BoundingBox.contains, Bool.and_eq_true, decide_eq_true_eq] at h ⊢
  obtain ⟨⟨⟨h1, h2⟩, h3⟩, h4⟩ := h
  exact ⟨⟨⟨by linarith, by linarith⟩, by linarith⟩, by linarith⟩

theorem worldBox_wf : boxWF (BoundingBox.from_coordinates (-90) 90 (-180) 180) := by
  unfold boxWF BoundingBox.from_coordinates
  norm_num

theorem worldBox_contains (p : GeoLocation) (hlat : |p.latitude| ≤ 90)
    (hlon : |p.longitude| ≤ 180) :
    (BoundingBox.from_coordinates (-90) 90 (-180) 180).contains p = true := by
  rw [abs_le] at hlat hlon
  unfold BoundingBox.contains BoundingBox.from_coordinates
  simp only [Bool.and_eq_true, decide_eq_true_eq]
  norm_num
  exact ⟨⟨⟨hlat.1, hlat.2⟩, hlon.1⟩, hlon.2⟩

theorem encBits_five (l : GeoLocation) (st : BoundingBox × Bool) :
    encBits l 5 st =
      [encBit l st, encBit l (step1 l st), encBit l (step1 l (step1 l st)),
       encBit l (step1 l (step1 l (step1 l st))),
       encBit l (step1 l (step1 l (step1 l (step1 l st))))] := rfl

theorem runEnc_five (l : GeoLocation) (st : BoundingBox × Bool) :
    runEnc l 5 st = step1 l (step1 l (step1 l (step1 l (step1 l st)))) := rfl

theorem encodeStep_eq (l : GeoLocation) (st : EncState) :
    encodeStep l st =
      { bbox := (step1 l (st.bbox, st.islon)).1
        islon := (step1 l (st.bbox, st.islon)).2
        num_bits := st.num_bits + 1
        hash_index :=
          if (st.num_bits + 1) % 5 == 0 then 0
          else st.hash_index * 2 + (if encBit l (st.bbox, st.islon) then 1 else 0)
        output :=
          if (st.num_bits + 1) % 5 == 0 then
            st.output ++ [BASE32_CODES.getD
              (st.hash_index * 2 + (if encBit l (st.bbox, st.islon) then 1 else 0)) ' ']
          else st.output } := by
  rcases st with ⟨box, islon, nb, hi, out⟩
  cases islon with
  | true =>
    by_cases hc : l.longitude > (box.max_lon + box.min_lon) / 2
    · rw [step1_true_pos l box hc]
      simp [encodeStep, encBit, hc]
      split_ifs <;> rfl
    · rw [step1_true_neg l box hc]
      simp [encodeStep, encBit, hc]
      split_ifs <;> rfl
  | false =>
    by_cases hc : l.latitude > (box.max_lat + box.min_lat) / 2
    · rw [step1_false_pos l box hc]
      simp [encodeStep, encBit, hc]
      split_ifs <;> rfl
    · rw [step1_false_neg l box hc]
      simp [encodeStep, encBit, hc]
      split_ifs <;> rfl

theorem encodeLoopC_succ (l : GeoLocation) (precision fuel : Nat) (st : EncState) :
    encodeLoop l precision (fuel + 1) st =
      if st.output.length < precision then
        encodeLoop l precision fuel (encodeStep l st)
      else st := rfl

theorem encodeLoop_step_of_lt (l : GeoLocation) (precision fuel : Nat) (st : EncState)
    (h : st.output.length < precision) :
    encodeLoop l precision (fuel + 1) st = encodeLoop l precision fuel (encodeStep l st) := by
  rw [encodeLoopC_succ, if_pos h]

theorem encodeLoop_chunk (l : GeoLocation) (precision f c : Nat) (box : BoundingBox)
    (islon : Bool) (out : List Char) (hcp : c < precision) (hout : out.length = c) :
    encodeLoop l precision (f + 5) ⟨box, islon, 5 * c, 0, out⟩ =
      encodeLoop l precision f
        ⟨(runEnc l 5 (box, islon)).1, (runEnc l 5 (box, islon)).2, 5 * c + 5, 0,
          out ++ [BASE32_CODES.getD (toIdx (encBits l 5 (box, islon))) ' ']⟩ := by
  have hlen : out.length < precision := by rw [hout]; exact hcp
  have hm1 : ((5 * c + 1) % 5 == 0) = false := by
    simp only [beq_eq_false_iff_ne, ne_eq]; omega
  have hm2 : ((5 * c + 1 + 1) % 5 == 0) = false := by
    simp only [beq_eq_false_iff_ne, ne_eq]; omega
  have hm3 : ((5 * c + 1 + 1 + 1) % 5 == 0) = false := by
    simp only [beq_eq_false_iff_ne, ne_eq]; omega
  have hm4 : ((5 * c + 1 + 1 + 1 + 1) % 5 == 0) = false := by
    simp only [beq_eq_false_iff_ne, ne_eq]; omega
  have hm5 : ((5 * c + 1 + 1 + 1 + 1 + 1) % 5 == 0) = true := by
    simp only [beq_iff_eq]; omega
  have hnb : 5 * c + 1 + 1 + 1 + 1 + 1 = 5 * c + 5 := by omega
  rw [show f + 5 = (f + 4) + 1 by omega,
    encodeLoop_step_of_lt l precision (f + 4) _ (by exact hlen), encodeStep_eq]
  simp only [hm1, Bool.false_eq_true, if_false, Prod.mk.eta]
  rw [show f + 4 = (f + 3) + 1 by omega,
    encodeLoop_step_of_lt l precision (f + 3) _ (by exact hlen), encodeStep_eq]
  simp only [hm2, Bool.false_eq_true, if_false, Prod.mk.eta]
  rw [show f + 3 = (f + 2) + 1 by omega,
    encodeLoop_step_of_lt l precision (f + 2) _ (by exact hlen), encodeStep_eq]
  simp only [hm3, Bool.false_eq_true, if_false, Prod.mk.eta]
  rw [show f + 2 = (f + 1) + 1 by omega,
    encodeLoop_step_of_lt l precision (f + 1) _ (by exact hlen), encodeStep_eq]
  simp only [hm4, Bool.false_eq_true, if_false, Prod.mk.eta]
  rw [encodeLoop_step_of_lt l precision f _ (by exact hlen), encodeStep_eq]
  simp only [hm5, if_true, Prod.mk.eta, hnb]
  rw [runEnc_five, encBits_five]
  simp [toIdx]

theorem encodeLoop_run (l : GeoLocation) (precision : Nat) :
    ∀ (j c : Nat) (box : BoundingBox) (islon : Bool) (out : List Char),
    c + j = precision → out.length = c →
    (encodeLoop l precision (5 * j) ⟨box, islon, 5 * c, 0, out⟩).output =
      out ++ pack5 (encBits l (5 * j) (box, islon)) := by
  intro j
  induction j with
  | zero =>
    intro c box islon out hc hout
    rw [Nat.mul_zero]
    show out = out ++ pack5 (encBits l 0 (box, islon))
    rw [show encBits l 0 (box, islon) = [] from rfl]
    rw [show pack5 [] = [] from rfl, List.append_nil]
  | succ j ih =>
    intro c box islon out hc hout
    rw [show 5 * (j + 1) = 5 * j + 5 by ring,
      encodeLoop_chunk l precision (5 * j) c box islon out (by omega) hout,
      show 5 * c + 5 = 5 * (c + 1) by ring,
      ih (c + 1) (runEnc l 5 (box, islon)).1 (runEnc l 5 (box, islon)).2
        (out ++ [BASE32_CODES.getD (toIdx (encBits l 5 (box, islon))) ' ']) (by omega)
        (by rw [List.length_append, hout]; rfl)]
    rw [show (5 * j + 5 : Nat) = 5 + 5 * j by ring, encBits_add l 5 (5 * j) (box, islon),
      Prod.mk.eta, encBits_five]
    simp only [List.cons_append, List.nil_append, pack5, List.append_assoc]
    rfl

theorem encode_data (l : GeoLocation) (n : Nat) :
    (encode l n).data = pack5 (encBits l (5 * n)
      (BoundingBox.from_coordinates (-90) 90 (-180) 180, true)) := by
  have := encodeLoop_run l n n 0 (BoundingBox.from_coordinates (-90) 90 (-180) 180)
    true [] (by omega) rfl
  simpa [encode] using this

theorem toIdx_lt_32 : ∀ b1 b2 b3 b4 b5 : Bool, toIdx [b1, b2, b3, b4, b5] < 32 := by decide

theorem toIdx_bit4 : ∀ b1 b2 b3 b4 b5 : Bool,
    ((toIdx [b1, b2, b3, b4, b5] >>> 4) &&& 1 == 1) = b1 := by decide

theorem toIdx_bit3 : ∀ b1 b2 b3 b4 b5 : Bool,
    ((toIdx [b1, b2, b3, b4, b5] >>> 3) &&& 1 == 1) = b2 := by decide

theorem toIdx_bit2 : ∀ b1 b2 b3 b4 b5 : Bool,
    ((toIdx [b1, b2, b3, b4, b5] >>> 2) &&& 1 == 1) = b3 := by decide

theorem toIdx_bit1 : ∀ b1 b2 b3 b4 b5 : Bool,
    ((toIdx [b1, b2, b3, b4, b5] >>> 1) &&& 1 == 1) = b4 := by decide

theorem toIdx_bit0 : ∀ b1 b2 b3 b4 b5 : Bool,
    ((toIdx [b1, b2, b3, b4, b5] >>> 0) &&& 1 == 1) = b5 := by decide

theorem codes_roundtrip : ∀ i : Nat, i < 32 →
    48 ≤ (BASE32_CODES.getD i ' ').toNat ∧ (BASE32_CODES.getD i ' ').toNat ≤ 122 ∧
      BASE32_INDICES.getD ((BASE32_CODES.getD i ' ').toNat - 48) 255 = i ∧
      BASE32_CODES.getD i ' ' ∈ BASE32_CODES := by decide

theorem decodeChar_toIdx (b1 b2 b3 b4 b5 : Bool) (st : BoundingBox × Bool) :
    decodeChar (toIdx [b1, b2, b3, b4, b5]) st =
      stepBox b5 (stepBox b4 (stepBox b3 (stepBox b2 (stepBox b1 st)))) := by
  unfold decodeChar
  rw [show (List.range 5).reverse = [4, 3, 2, 1, 0] from rfl]
  simp only [List.foldl_cons, List.foldl_nil, toIdx_bit4, toIdx_bit3, toIdx_bit2,
    toIdx_bit1, toIdx_bit0, stepBox]

theorem decodeLoop_cons_valid (c : Char) (rest : List Char) (st : BoundingBox × Bool)
    (h1 : 48 ≤ c.toNat) (h2 : c.toNat ≤ 122)
    (h3 : BASE32_INDICES.getD (c.toNat - 48) 255 < 32) :
    decodeLoop (c :: rest) st =
      decodeLoop rest (decodeChar (BASE32_INDICES.getD (c.toNat - 48) 255) st) := by
  show (if 48 ≤ c.toNat ∧ c.toNat ≤ 122 then
      if BASE32_INDICES.getD (c.toNat - 48) 255 < 32 then
        decodeLoop rest (decodeChar (BASE32_INDICES.getD (c.toNat - 48) 255) st)
      else none
    else none) = _
  rw [if_pos ⟨h1, h2⟩, if_pos h3]

theorem decodeLoop_pack5 (l : GeoLocation) :
    ∀ (j : Nat) (st : BoundingBox × Bool),
    decodeLoop (pack5 (encBits l (5 * j) st)) st = some (runEnc l (5 * j) st) := by
  intro j
  induction j with
  | zero => intro st; rfl
  | succ j ih =>
    intro st
    rw [show 5 * (j + 1) = 5 + 5 * j by ring, encBits_add l 5 (5 * j) st, encBits_five]
    simp only [List.cons_append, List.nil_append, pack5]
    have hlt := toIdx_lt_32 (encBit l st) (encBit l (step1 l st))
      (encBit l (step1 l (step1 l st))) (encBit l (step1 l (step1 l (step1 l st))))
      (encBit l (step1 l (step1 l (step1 l (step1 l st)))))
    have hrt := codes_roundtrip _ hlt
    rw [decodeLoop_cons_valid _ _ _ hrt.1 hrt.2.1 (by rw [hrt.2.2.1]; exact hlt),
      hrt.2.2.1, decodeChar_toIdx, runEnc_add l 5 (5 * j) st]
    exact ih (runEnc l 5 st)

theorem pack5_encBits_spec (l : GeoLocation) :
    ∀ (j : Nat) (st : BoundingBox × Bool),
    (pack5 (encBits l (5 * j) st)).length = j ∧
      ∀ c ∈ pack5 (encBits l (5 * j) st), c ∈ BASE32_CODES := by
  intro j
  induction j with
  | zero =>
    intro st
    exact ⟨rfl, by intro c hc; cases hc⟩
  | succ j ih =>
    intro st
    rw [show 5 * (j + 1) = 5 + 5 * j by ring, encBits_add l 5 (5 * j) st, encBits_five]
    simp only [List.cons_append, List.nil_append, pack5]
    have hlt := toIdx_lt_32 (encBit l st) (encBit l (step1 l st))
      (encBit l (step1 l (step1 l st))) (encBit l (step1 l (step1 l (step1 l st))))
      (encBit l (step1 l (step1 l (step1 l (step1 l st)))))
    have hrt := codes_roundtrip _ hlt
    constructor
    · rw [List.length_cons]
      show (pack5 (encBits l (5 * j) (runEnc l 5 st))).length + 1 = j + 1
      rw [(ih (runEnc l 5 st)).1]
    · intro c hc
      rcases List.mem_cons.mp hc with hc | hc
      · rw [hc]; exact hrt.2.2.2
      · exact (ih (runEnc l 5 st)).2 c hc

theorem legal_char_iff (c : Char) :
    (48 ≤ c.toNat ∧ c.toNat ≤ 122 ∧ BASE32_INDICES.getD (c.toNat - 48) 255 < 32) ↔
      isLegalBase32Char c = true := by
  have hsmall : ∀ n, n < 123 →
      ((48 ≤ n ∧ n ≤ 122 ∧ BASE32_INDICES.getD (n - 48) 255 < 32) ↔
        Char.ofNat n ∈ legalBase32Chars) := by decide
  have hbig : ∀ x ∈ legalBase32Chars, x.toNat ≤ 122 := by decide
  unfold isLegalBase32Char
  rw [decide_eq_true_eq]
  by_cases hc : c.toNat < 123
  · have := hsmall c.toNat hc
    rwa [Char.ofNat_toNat] at this
  · constructor
    · intro h; omega
    · intro h
      exact absurd (hbig c h) (by omega)

theorem decodeLoop_cons_invalid1 (c : Char) (rest : List Char) (st : BoundingBox × Bool)
    (h : ¬(48 ≤ c.toNat ∧ c.toNat ≤ 122)) :
    decodeLoop (c :: rest) st = none := by
  show (if 48 ≤ c.toNat ∧ c.toNat ≤ 122 then
      if BASE32_INDICES.getD (c.toNat - 48) 255 < 32 then
        decodeLoop rest (decodeChar (BASE32_INDICES.getD (c.toNat - 48) 255) st)
      else none
    else none) = none
  rw [if_neg h]

theorem decodeLoop_cons_invalid2 (c : Char) (rest : List Char) (st : BoundingBox × Bool)
    (h12 : 48 ≤ c.toNat ∧ c.toNat ≤ 122)
    (h3 : ¬BASE32_INDICES.getD (c.toNat - 48) 255 < 32) :
    decodeLoop (c :: rest) st = none := by
  show (if 48 ≤ c.toNat ∧ c.toNat ≤ 122 then
      if BASE32_INDICES.getD (c.toNat - 48) 255 < 32 then
        decodeLoop rest (decodeChar (BASE32_INDICES.getD (c.toNat - 48) 255) st)
      else none
    else none) = none
  rw [if_pos h12, if_neg h3]

theorem decodeLoop_isNone : ∀ (cs : List Char) (st : BoundingBox × Bool),
    (decodeLoop cs st).isNone = cs.any (fun c => ! isLegalBase32Char c) := by
  intro cs
  induction cs with
  | nil => intro st; rfl
  | cons c rest ih =>
    intro st
    by_cases hleg : isLegalBase32Char c = true
    · have hv := (legal_char_iff c).mpr hleg
      rw [decodeLoop_cons_valid c rest st hv.1 hv.2.1 hv.2.2,
        List.any_cons, hleg]
      simp only [Bool.not_true, Bool.false_or]
      exact ih _
    · have hv : ¬(48 ≤ c.toNat ∧ c.toNat ≤ 122 ∧ BASE32_INDICES.getD (c.toNat - 48) 255 < 32) :=
        fun h => hleg ((legal_char_iff c).mp h)
      have hnone : decodeLoop (c :: rest) st = none := by
        by_cases h12 : 48 ≤ c.toNat ∧ c.toNat ≤ 122
        · exact decodeLoop_cons_invalid2 c rest st h12 (fun h3 => hv ⟨h12.1, h12.2, h3⟩)
        · exact decodeLoop_cons_invalid1 c rest st h12
      rw [hnone, List.any_cons]
      simp [hleg]

theorem decode_encode (l : GeoLocation) (n : Nat) :
    decode (encode l n) =
      some ((runEnc l (5 * n) (BoundingBox.from_coordinates (-90) 90 (-180) 180, true)).1) := by
  unfold decode
  rw [encode_data, decodeLoop_pack5]
  rfl

theorem binDecode_encode (l : GeoLocation) (n : Nat) (hn : n ≤ 64) :
    (BinaryHash.encode l n).decode =
      (runEnc l n (BoundingBox.from_coordinates (-90) 90 (-180) 180, true)).1 := by
  rw [binDecode_eq, binEncode_eq l n (by omega)]
  have hps := pushAll_spec (encBits l n (BoundingBox.from_coordinates (-90) 90 (-180) 180, true))
    BinaryHash.new (by decide)
    (by rw [encBits_length]; show 0 + n ≤ 64; omega)
  rw [hps.2.2, show BinaryHash.new.bitsList = [] from rfl, List.nil_append,
    foldl_stepBox_encBits]


/-! ### Claim theorems -/

/-- C1: for every GeoLocation `p` with `|latitude| ≤ 90` and `|longitude| ≤ 180`
and every precision `n` in 1..12 characters (respectively 1..60 bits for
`BinaryHash`), the bounding box `decode (encode p n)` (respectively
`(BinaryHash.encode p nb).decode`) contains `p`. -/
theorem C1_roundtrip_containment (p : GeoLocation)
    (hlat : |p.latitude| ≤ 90) (hlon : |p.longitude| ≤ 180)
    (n nb : Nat) (hn1 : 1 ≤ n) (hn2 : n ≤ 12) (hb1 : 1 ≤ nb) (hb2 : nb ≤ 60) :
    (∃ box, decode (encode p n) = some box ∧ box.contains p = true) ∧
      (BinaryHash.encode p nb).decode.contains p = true := by
  constructor
  · exact ⟨_, decode_encode p n,
      contains_runEnc p (5 * n) _ (worldBox_contains p hlat hlon)⟩
  · rw [binDecode_encode p nb (by omega)]
    exact contains_runEnc p nb _ (worldBox_contains p hlat hlon)

/-- Witness for C1 at the origin with one character and one bit. -/
theorem C1_roundtrip_containment_witness :
    |(0 : ℚ)| ≤ 90 ∧ |(0 : ℚ)| ≤ 180 ∧
      ((∃ box, decode (encode ⟨0, 0⟩ 1) = some box ∧ box.contains ⟨0, 0⟩ = true) ∧
        (BinaryHash.encode ⟨0, 0⟩ 1).decode.contains ⟨0, 0⟩ = true) :=
  ⟨by norm_num, by norm_num,
    C1_roundtrip_containment ⟨0, 0⟩ (by norm_num) (by norm_num) 1 1 (le_refl 1)
      (by norm_num) (le_refl 1) (by norm_num)⟩

/-- C2: decode fails (returns no bounding box) if and only if the input has a
character outside the legal case-insensitive base32 alphabet; on a string of
only legal characters it succeeds. -/
theorem C2_decode_fails_iff_illegal (hash : String) :
    (decode hash).isNone = hash.data.any (fun c => ! isLegalBase32Char c) := by
  unfold decode
  have h := decodeLoop_isNone hash.data
    (BoundingBox.from_coordinates (-90) 90 (-180) 180, true)
  cases hd : decodeLoop hash.data
      (BoundingBox.from_coordinates (-90) 90 (-180) 180, true) with
  | none => rw [hd] at h; exact h
  | some st => rw [hd] at h; exact h

/-- C3: encoding latitude 31.16373922, longitude 121.62585927 at 7 characters
gives exactly "wtw3r9j". -/
theorem C3_concrete_encode :
    encode { latitude := 31.16373922, longitude := 121.62585927 } 7 = "wtw3r9j" := by
  with_unfolding_all decide

/-- C4 counterexample: "z" consists only of legal base32 characters, yet
`neighbors "z"` produces no list at all (the shifted center for direction
(-1, 1) leaves the valid coordinate range, so the construction fails),
contradicting the claim that neighbors returns 9 strings for every legal
hash. -/
theorem C4_counterexample :
    "z".data.all isLegalBase32Char = true ∧ neighbors "z" = none :=
  ⟨by decide, by with_unfolding_all decide⟩

/-- C4 amended: whenever all eight directional neighbor computations succeed,
`neighbors hash` returns exactly 9 strings: the hash itself first, then the
eight neighbors in the fixed direction order (-1,-1), (-1,0), (-1,1), (0,-1),
(0,1), (1,-1), (1,0), (1,1). -/
theorem C4_neighbors_order (hash : String) (s1 s2 s3 s4 s5 s6 s7 s8 : String)
    (h1 : neighbor hash (-1, -1) = some s1) (h2 : neighbor hash (-1, 0) = some s2)
    (h3 : neighbor hash (-1, 1) = some s3) (h4 : neighbor hash (0, -1) = some s4)
    (h5 : neighbor hash (0, 1) = some s5) (h6 : neighbor hash (1, -1) = some s6)
    (h7 : neighbor hash (1, 0) = some s7) (h8 : neighbor hash (1, 1) = some s8) :
    neighbors hash = some [hash, s1, s2, s3, s4, s5, s6, s7, s8] := by
  unfold neighbors
  rw [h1, h2, h3, h4, h5, h6, h7, h8]
  rfl

/-- Witness for the amended C4 on the equatorial cell "s". -/
theorem C4_neighbors_order_witness :
    neighbors "s" = some ["s", "7", "k", "m", "e", "t", "g", "u", "v"] :=
  C4_neighbors_order "s" "7" "k" "m" "e" "t" "g" "u" "v"
    (by with_unfolding_all decide) (by with_unfolding_all decide)
    (by with_unfolding_all decide) (by with_unfolding_all decide)
    (by with_unfolding_all decide) (by with_unfolding_all decide)
    (by with_unfolding_all decide) (by with_unfolding_all decide)

/-- C5: for the same location, a higher-precision binary cell is contained in
the lower-precision cell: every point of the box decoded at n bits lies in
the box decoded at m ≤ n bits. -/
theorem C5_monotonic_refinement (p : GeoLocation)
    (hlat : |p.latitude| ≤ 90) (hlon : |p.longitude| ≤ 180)
    (m n : Nat) (hm : 1 ≤ m) (hmn : m ≤ n) (hn : n ≤ 60) (q : GeoLocation)
    (hq : (BinaryHash.encode p n).decode.contains q = true) :
    (BinaryHash.encode p m).decode.contains q = true := by
  rw [binDecode_encode p n (by omega)] at hq
  rw [binDecode_encode p m (by omega)]
  rw [show n = m + (n - m) by omega, runEnc_add] at hq
  have hwfm := runEnc_wf_sub p m
    (BoundingBox.from_coordinates (-90) 90 (-180) 180, true) worldBox_wf
  have hsub := (runEnc_wf_sub p (n - m)
    (runEnc p m (BoundingBox.from_coordinates (-90) 90 (-180) 180, true)) hwfm.1).2
  exact contains_of_boxSub hsub hq

/-- Witness for C5 at the origin with 1 ≤ 2 bits. -/
theorem C5_monotonic_refinement_witness :
    (BinaryHash.encode ⟨0, 0⟩ 2).decode.contains ⟨0, 0⟩ = true ∧
      (BinaryHash.encode ⟨0, 0⟩ 1).decode.contains ⟨0, 0⟩ = true :=
  ⟨by with_unfolding_all decide,
    C5_monotonic_refinement ⟨0, 0⟩ (by norm_num) (by norm_num) 1 2 (le_refl 1)
      (by norm_num) (by norm_num) ⟨0, 0⟩ (by with_unfolding_all decide)⟩

/-- C6: GeoLocation::from_coordinates fails exactly when `|lat| > 90` or
`|lon| > 180`, and otherwise returns the record with exactly the given
fields. -/
theorem C6_from_coordinates_spec (lat lon : ℚ) :
    (GeoLocation.from_coordinates lat lon = none ↔ 90 < |lat| ∨ 180 < |lon|) ∧
      ∀ g, GeoLocation.from_coordinates lat lon = some g →
        g.latitude = lat ∧ g.longitude = lon := by
  unfold GeoLocation.from_coordinates
  constructor
  · by_cases h1 : |lat| ≤ 90
    · by_cases h2 : |lon| ≤ 180
      · rw [if_pos h1, if_pos h2]
        constructor
        · intro h; cases h
        · rintro (h | h) <;> linarith
      · rw [if_pos h1, if_neg h2]
        exact ⟨fun _ => Or.inr (lt_of_not_le h2), fun _ => rfl⟩
    · rw [if_neg h1]
      exact ⟨fun _ => Or.inl (lt_of_not_le h1), fun _ => rfl⟩
  · intro g hg
    by_cases h1 : |lat| ≤ 90
    · by_cases h2 : |lon| ≤ 180
      · rw [if_pos h1, if_pos h2] at hg
        cases hg
        exact ⟨rfl, rfl⟩
      · rw [if_pos h1, if_neg h2] at hg
        cases hg
    · rw [if_neg h1] at hg
      cases hg

/-- Witness for C6: latitude 91 is rejected. -/
theorem C6_from_coordinates_witness :
    GeoLocation.from_coordinates 91 0 = none :=
  (C6_from_coordinates_spec 91 0).1.mpr (Or.inl (by norm_num))

/-- C7: merged computes component-wise min of minimums and max of maximums,
it is total, and the mutating merge_with computes the same box. -/
theorem C7_merge_laws (a b : BoundingBox) :
    (BoundingBox.merged a b).min_lat = min a.min_lat b.min_lat ∧
      (BoundingBox.merged a b).max_lat = max a.max_lat b.max_lat ∧
      (BoundingBox.merged a b).min_lon = min a.min_lon b.min_lon ∧
      (BoundingBox.merged a b).max_lon = max a.max_lon b.max_lon ∧
      a.merge_with b = BoundingBox.merged a b := by
  refine ⟨rfl, rfl, rfl, rfl, ?_⟩
  unfold BoundingBox.merge_with BoundingBox.merged
  ext <;> simp only [] <;> split_ifs <;>
    simp_all [min_def, max_def] <;> split_ifs <;> first | rfl | linarith

/-- C8: every provided constructor establishes `min ≤ max` on both axes:
from_coordinates and from_geolocations for arguments in either order, and
merged preserves it when both inputs satisfy it. -/
theorem C8_constructors_invariant :
    (∀ a b c d : ℚ, boxWF (BoundingBox.from_coordinates a b c d)) ∧
      (∀ p1 p2 : GeoLocation, boxWF (BoundingBox.from_geolocations p1 p2)) ∧
      ∀ x y : BoundingBox, boxWF x → boxWF y → boxWF (BoundingBox.merged x y) := by
  refine ⟨fun a b c d => ⟨min_le_max, min_le_max⟩,
    fun p1 p2 => ⟨min_le_max, min_le_max⟩, ?_⟩
  intro x y hx hy
  exact ⟨le_trans (min_le_left _ _) (le_trans hx.1 (le_max_left _ _)),
    le_trans (min_le_left _ _) (le_trans hx.2 (le_max_left _ _))⟩

/-- Witness for C8 on two concrete well-formed boxes. -/
theorem C8_constructors_invariant_witness :
    boxWF (BoundingBox.merged ⟨0, 1, 0, 1⟩ ⟨0, 2, 0, 2⟩) :=
  C8_constructors_invariant.2.2 ⟨0, 1, 0, 1⟩ ⟨0, 2, 0, 2⟩
    ⟨by norm_num, by norm_num⟩ ⟨by norm_num, by norm_num⟩

/-- C9: encode returns exactly n characters, all drawn from BASE32_CODES, and
the character list is the 5-bit packing of the 5n bisection bits. -/
theorem C9_encode_length_alphabet (l : GeoLocation) (n : Nat) :
    (encode l n).length = n ∧ (∀ c ∈ (encode l n).data, c ∈ BASE32_CODES) ∧
      (encode l n).data =
        pack5 (encBits l (5 * n)
          (BoundingBox.from_coordinates (-90) 90 (-180) 180, true)) := by
  have hd := encode_data l n
  have hs := pack5_encBits_spec l n
    (BoundingBox.from_coordinates (-90) 90 (-180) 180, true)
  refine ⟨?_, ?_, hd⟩
  · show (encode l n).data.length = n
    rw [hd]; exact hs.1
  · intro c hc; rw [hd] at hc; exact hs.2 c hc

/-- Witness for C9 at one character. -/
theorem C9_encode_length_witness : (encode ⟨0, 0⟩ 1).length = 1 :=
  (C9_encode_length_alphabet ⟨0, 0⟩ 1).1

/-- C10: neighbor is not total over legal inputs: there is a geohash of legal
characters and a direction with components in {-1, 0, 1} for which the
shifted center violates the coordinate bounds, so the validation inside
GeoLocation::from_coordinates fails and neighbor produces no result. -/
theorem C10_neighbor_not_total :
    ∃ (hash : String) (d : Int × Int),
      hash.data.all isLegalBase32Char = true ∧
      d.1 ∈ ([-1, 0, 1] : List Int) ∧ d.2 ∈ ([-1, 0, 1] : List Int) ∧
      neighbor hash d = none :=
  ⟨"z", (1, 0), by decide, by decide, by decide, by with_unfolding_all decide⟩
